import Mathlib

/-! Verification of `Bankable::MIDIChordButton`.

A shallow embedding of `src/MIDI_Outputs/Bankable/Abstract/MIDIChordButton.hpp`
and the statements about its press/release behaviour.

The class owns a bankable address, a debounced button, the chord that is
playing (`chord`) and a staged replacement (`newChord`); `update()` is polled
once per cycle and reacts to the edge reported by the button.  The calls made
on the collaborators (`address.lock()`, `address.unlock()`, `sender.sendOn`,
`sender.sendOff`) are recorded, in program order, as a list of events.
-/

namespace Bankable

/-! ## Data model -/

/-- The address of a MIDI note: note number, channel and cable number
(`MIDICNChannelAddress` in the constructor's signature). -/
structure MIDICNChannelAddress where
  address : Int
  channel : Int
  cableNumber : Int
deriving DecidableEq

/-- The chord interface `IChord`: what `for (int8_t offset : *chord)` walks
through, the signed semitone offsets in stored order. -/
abbrev IChord := List Int

/-- The state of the shared bank as seen by one element: the concrete address
it currently gives to a logical (base) address.  The bank is owned by nobody in
this file and can change between any two calls. -/
abbrev Bank := MIDICNChannelAddress → MIDICNChannelAddress

/-- The values `button.getState()` can return.  `update()` names `Falling` and
`Rising`; the two others are the steady states. -/
inductive Button.State where
  | Idle
  | Falling
  | Held
  | Rising
deriving DecidableEq

/-- Modelled from the spec: the class `SingleAddress` (declared in
`Banks/BankAddresses.hpp`, only used here).  It owns the base address and
a lock; `locked` holds the frozen address while the lock is on. -/
structure SingleAddress where
  base : MIDICNChannelAddress
  locked : Option MIDICNChannelAddress
deriving DecidableEq

/-- Modelled from the spec: `SingleAddress::getActiveAddress()`, the `resolve()`
of the resolver: the frozen address if locked, else the live resolution of the
base address by the bank. -/
def SingleAddress.getActiveAddress (bank : Bank) (a : SingleAddress) :
    MIDICNChannelAddress :=
  match a.locked with
  | some frozen => frozen
  | none => bank a.base

/-- Modelled from the spec: `SingleAddress::lock()` captures the currently
resolved address as the frozen value. -/
def SingleAddress.lock (bank : Bank) (a : SingleAddress) : SingleAddress :=
  { a with locked := some (a.getActiveAddress bank) }

/-- Modelled from the spec: `SingleAddress::unlock()` releases the frozen
value. -/
def SingleAddress.unlock (a : SingleAddress) : SingleAddress :=
  { a with locked := none }

/-- Modelled from the spec: the address arithmetic `sendAddress + offset` on the
values 0..127 where the sum stays in that range (the operator is declared in a
header that is only included here): the offset is applied to the note number,
channel and cable number are kept.  `update` takes the addition as an argument,
so what is proved of it holds for every way of treating a sum outside 0..127;
this instance is the plain sum and serves the concrete examples. -/
def MIDICNChannelAddress.add (a : MIDICNChannelAddress) (offset : Int) :
    MIDICNChannelAddress :=
  { a with address := a.address + offset }

/-- One call made by the button on a collaborator. -/
inductive Event where
  | lock
  | unlock
  | sendOn (a : MIDICNChannelAddress)
  | sendOff (a : MIDICNChannelAddress)
deriving DecidableEq

/-- The data members of `MIDIChordButton` that `update` and `setChord` touch.
The two `unique_ptr<const IChord>` members are `none` when null. -/
structure MIDIChordButton where
  address : SingleAddress
  chord : Option IChord
  newChord : Option IChord
deriving DecidableEq

/-! ## Operations -/

/-- The constructor: `address{config, address}`, `newChord(make_unique(chord))`;
`chord` is not in the initialiser list and starts null. -/
def MIDIChordButton.init (address : MIDICNChannelAddress) (chord : IChord) :
    MIDIChordButton :=
  { address := { base := address, locked := none }
    chord := none
    newChord := some chord }

/-- The calls `sender.sendOn(sendAddress)` followed by
`sender.sendOn(sendAddress + offset)` for every offset of the chord. -/
def sendOnAll (plus : MIDICNChannelAddress → Int → MIDICNChannelAddress)
    (sendAddress : MIDICNChannelAddress) (chord : IChord) : List Event :=
  Event.sendOn sendAddress :: chord.map (fun offset => Event.sendOn (plus sendAddress offset))

/-- The calls `sender.sendOff(sendAddress)` followed by
`sender.sendOff(sendAddress + offset)` for every offset of the chord. -/
def sendOffAll (plus : MIDICNChannelAddress → Int → MIDICNChannelAddress)
    (sendAddress : MIDICNChannelAddress) (chord : IChord) : List Event :=
  Event.sendOff sendAddress :: chord.map (fun offset => Event.sendOff (plus sendAddress offset))

/-- How one execution of the body of `update()` ends: it returns, or it reaches
`*chord` with a null pointer.  Either way the object state at that point and
the calls made up to that point, in program order, are kept. -/
inductive Outcome where
  | returned (b : MIDIChordButton) (events : List Event)
  | nullChord (b : MIDIChordButton) (events : List Event)
deriving DecidableEq

/-- The calls made during the execution, up to its end. -/
def Outcome.events : Outcome → List Event
  | Outcome.returned _ events => events
  | Outcome.nullChord _ events => events

/-- The object state at the end of the execution. -/
def Outcome.state : Outcome → MIDIChordButton
  | Outcome.returned b _ => b
  | Outcome.nullChord b _ => b

/-- The body of the method `update()`, statement by statement.  `bank` is the
bank state during this call, `state` what `button.getState()` returned.  When
`for (int8_t offset : *chord)` finds `chord` null, the execution ends there
with what has been done before that line. -/
def MIDIChordButton.updateBody (plus : MIDICNChannelAddress → Int → MIDICNChannelAddress)
    (bank : Bank) (state : Button.State) (b : MIDIChordButton) : Outcome :=
  if state = Button.State.Falling then
    -- if (newChord) chord = move(newChord);   (the moved-from pointer is null)
    let chord := if b.newChord.isSome then b.newChord else b.chord
    let newChord := if b.newChord.isSome then none else b.newChord
    -- address.lock();
    let address := b.address.lock bank
    -- auto sendAddress = address.getActiveAddress();
    let sendAddress := address.getActiveAddress bank
    -- sender.sendOn(sendAddress); for (int8_t offset : *chord) ...
    match chord with
    | none =>
      Outcome.nullChord { address := address, chord := none, newChord := newChord }
        [Event.lock, Event.sendOn sendAddress]
    | some c =>
      Outcome.returned { address := address, chord := some c, newChord := newChord }
        (Event.lock :: sendOnAll plus sendAddress c)
  else if state = Button.State.Rising then
    -- auto sendAddress = address.getActiveAddress();
    let sendAddress := b.address.getActiveAddress bank
    -- sender.sendOff(sendAddress); for (int8_t offset : *chord) ...; address.unlock();
    match b.chord with
    | none => Outcome.nullChord b [Event.sendOff sendAddress]
    | some c =>
      Outcome.returned { b with address := b.address.unlock }
        (sendOffAll plus sendAddress c ++ [Event.unlock])
  else
    Outcome.returned b []

/-- The method `update()` as its caller sees it: the new object state and the
calls made when the body returns, `none` when the body ends at `*chord` on a
null pointer (`updateBody` tells what was done before). -/
def MIDIChordButton.update (plus : MIDICNChannelAddress → Int → MIDICNChannelAddress)
    (bank : Bank) (state : Button.State) (b : MIDIChordButton) :
    Option (MIDIChordButton × List Event) :=
  match b.updateBody plus bank state with
  | Outcome.returned b1 events => some (b1, events)
  | Outcome.nullChord _ _ => none

/-- The method `setChord(chord)`: `newChord = new Chord<N>(chord)`. -/
def MIDIChordButton.setChord (chord : IChord) (b : MIDIChordButton) : MIDIChordButton :=
  { b with newChord := some chord }

/-! ## Call sequences -/

/-- One call on the public surface, with the bank state it runs under. -/
inductive Call where
  | update (bank : Bank) (state : Button.State)
  | setChord (chord : IChord)

/-- Performs one call. `setChord` calls no collaborator. -/
def step (plus : MIDICNChannelAddress → Int → MIDICNChannelAddress) (c : Call)
    (b : MIDIChordButton) : Option (MIDIChordButton × List Event) :=
  match c with
  | Call.update bank state => b.update plus bank state
  | Call.setChord chord => some (b.setChord chord, [])

/-- Performs the calls in order and concatenates the events; `none` as soon as
one call fails. -/
def run (plus : MIDICNChannelAddress → Int → MIDICNChannelAddress) :
    List Call → MIDIChordButton → Option (MIDIChordButton × List Event)
  | [], b => some (b, [])
  | c :: cs, b =>
    match step plus c b with
    | none => none
    | some (b1, t1) =>
      match run plus cs b1 with
      | none => none
      | some (b2, t2) => some (b2, t1 ++ t2)

/-- The addresses given to `sendOn`, in order. -/
def onAddresses : List Event → List MIDICNChannelAddress
  | [] => []
  | Event.sendOn a :: es => a :: onAddresses es
  | _ :: es => onAddresses es

/-- The addresses given to `sendOff`, in order. -/
def offAddresses : List Event → List MIDICNChannelAddress
  | [] => []
  | Event.sendOff a :: es => a :: offAddresses es
  | _ :: es => offAddresses es

/-- The `lock()` and `unlock()` calls of a trace, in order. -/
def lockCalls : List Event → List Event
  | [] => []
  | Event.lock :: es => Event.lock :: lockCalls es
  | Event.unlock :: es => Event.unlock :: lockCalls es
  | _ :: es => lockCalls es

/-- A call that is neither a press nor a release: `setChord`, or `update` on a
`Held` or `Idle` button. -/
def Call.quiet : Call → Bool
  | Call.update _ Button.State.Falling => false
  | Call.update _ Button.State.Rising => false
  | _ => true

/-- Whether the call is an `update`. -/
def Call.isUpdate : Call → Bool
  | Call.update _ _ => true
  | Call.setChord _ => false

/-- An `update` call on a button in a steady state (`Held` or `Idle`). -/
def Call.steady : Call → Bool
  | Call.update _ Button.State.Held => true
  | Call.update _ Button.State.Idle => true
  | _ => false

/-- Any call but a press: `setChord`, or `update` on an edge other than
`Falling`. -/
def Call.noPress : Call → Bool
  | Call.update _ Button.State.Falling => false
  | _ => true

/-- The button edges of a call sequence alternate `Falling`, `Rising`, ...;
`pressed` tells whether the button is down at the start. `Held`/`Idle` polls
and `setChord` calls may come anywhere. -/
def alternates : Bool → List Call → Bool
  | _, [] => true
  | pressed, Call.update _ Button.State.Falling :: cs => !pressed && alternates true cs
  | pressed, Call.update _ Button.State.Rising :: cs => pressed && alternates false cs
  | pressed, _ :: cs => alternates pressed cs

/-- Whether the button is down after the calls. -/
def pressedAfter : Bool → List Call → Bool
  | pressed, [] => pressed
  | _, Call.update _ Button.State.Falling :: cs => pressedAfter true cs
  | _, Call.update _ Button.State.Rising :: cs => pressedAfter false cs
  | pressed, _ :: cs => pressedAfter pressed cs

/-- One `lock` per `Falling` update and one `unlock` per `Rising` update, in
the order of the calls. -/
def edgeLocks : List Call → List Event
  | [] => []
  | Call.update _ Button.State.Falling :: cs => Event.lock :: edgeLocks cs
  | Call.update _ Button.State.Rising :: cs => Event.unlock :: edgeLocks cs
  | _ :: cs => edgeLocks cs

/-- Replays the `lock()`/`unlock()` calls of a trace against the lock flag:
false as soon as `lock()` comes while locked or `unlock()` while not locked. -/
def lockDiscipline : Bool → List Event → Bool
  | _, [] => true
  | locked, Event.lock :: es => !locked && lockDiscipline true es
  | locked, Event.unlock :: es => locked && lockDiscipline false es
  | locked, _ :: es => lockDiscipline locked es

/-- The bank that leaves every address where it is. -/
def Bank.identity : Bank := fun a => a

/-- A bank that moves every note four semitones up. -/
def Bank.shift4 : Bank := fun a => { a with address := a.address + 4 }

/-- The base address of the examples: note 60 on channel 1, cable 0. -/
def note60 : MIDICNChannelAddress := { address := 60, channel := 1, cableNumber := 0 }

/-- The address of note `n` on channel 1, cable 0. -/
def noteAt (n : Int) : MIDICNChannelAddress := { address := n, channel := 1, cableNumber := 0 }

/-- The sequence lock, unlock, lock, ... of the given length (starting with
unlock when `locked`). -/
def lockUnlockSeq : Bool → Nat → List Event
  | _, 0 => []
  | false, n + 1 => Event.lock :: lockUnlockSeq true n
  | true, n + 1 => Event.unlock :: lockUnlockSeq false n

/-- What the call sequences keep true of the object: the lock flag follows the
button (`pressed`), and there is a chord to play: an active one, or, while the
button is up, at least a pending one. -/
def Inv (pressed : Bool) (b : MIDIChordButton) : Prop :=
  b.address.locked.isSome = pressed ∧
    (b.chord.isSome = true ∨ (pressed = false ∧ b.newChord.isSome = true))

/-- Whether the calls contain an `update` on a `Falling` edge. -/
def hasFalling : List Call → Bool
  | [] => false
  | Call.update _ Button.State.Falling :: _ => true
  | _ :: cs => hasFalling cs

/-- No `update` on a `Rising` edge comes before the first `update` on a
`Falling` edge; after that first press the edges are free. -/
def noEarlyRising : List Call → Bool
  | [] => true
  | Call.update _ Button.State.Falling :: _ => true
  | Call.update _ Button.State.Rising :: _ => false
  | _ :: cs => noEarlyRising cs

/-- The chord that is active once a `Falling` update has run
`if (newChord) chord = move(newChord)`. -/
def MIDIChordButton.nextChord (b : MIDIChordButton) : Option IChord :=
  if b.newChord.isSome then b.newChord else b.chord

/-! ## Basic facts -/

theorem getActiveAddress_lock (bank bank2 : Bank) (a : SingleAddress) :
    (a.lock bank).getActiveAddress bank2 = a.getActiveAddress bank := by
  simp [SingleAddress.lock, SingleAddress.getActiveAddress]

theorem nextChord_isSome (b : MIDIChordButton) (h : b.chord.isSome ∨ b.newChord.isSome) :
    ∃ c, b.nextChord = some c := by
  unfold MIDIChordButton.nextChord
  cases hn : b.newChord with
  | some n => exact ⟨n, by simp⟩
  | none =>
    cases hc : b.chord with
    | some c => exact ⟨c, by simp⟩
    | none => simp [hn, hc] at h

theorem update_falling (plus : MIDICNChannelAddress → Int → MIDICNChannelAddress)
    (bank : Bank) (b : MIDIChordButton) (c : IChord) (h : b.nextChord = some c) :
    b.update plus bank Button.State.Falling
      = some ({ address := b.address.lock bank, chord := some c, newChord := none },
              Event.lock :: sendOnAll plus (b.address.getActiveAddress bank) c) := by
  unfold MIDIChordButton.nextChord at h
  cases hn : b.newChord <;> simp [hn] at h <;>
    simp [MIDIChordButton.update, MIDIChordButton.updateBody, hn, h, getActiveAddress_lock]

theorem update_rising (plus : MIDICNChannelAddress → Int → MIDICNChannelAddress)
    (bank : Bank) (b : MIDIChordButton) (c : IChord) (h : b.chord = some c) :
    b.update plus bank Button.State.Rising
      = some ({ b with address := b.address.unlock },
              sendOffAll plus (b.address.getActiveAddress bank) c ++ [Event.unlock]) := by
  simp [MIDIChordButton.update, MIDIChordButton.updateBody, h]

theorem update_steady (plus : MIDICNChannelAddress → Int → MIDICNChannelAddress)
    (bank : Bank) (state : Button.State) (b : MIDIChordButton)
    (hF : state ≠ Button.State.Falling) (hR : state ≠ Button.State.Rising) :
    b.update plus bank state = some (b, []) := by
  simp [MIDIChordButton.update, MIDIChordButton.updateBody, hF, hR]

theorem onAddresses_map_sendOn (f : Int → MIDICNChannelAddress) (c : IChord) :
    onAddresses (c.map (fun o => Event.sendOn (f o))) = c.map f := by
  induction c with
  | nil => rfl
  | cons o os ih => simp [onAddresses, ih]

theorem offAddresses_map_sendOn (f : Int → MIDICNChannelAddress) (c : IChord) :
    offAddresses (c.map (fun o => Event.sendOn (f o))) = [] := by
  induction c with
  | nil => rfl
  | cons o os ih => simp [offAddresses, ih]

theorem offAddresses_map_sendOff_append (f : Int → MIDICNChannelAddress) (c : IChord)
    (rest : List Event) :
    offAddresses (c.map (fun o => Event.sendOff (f o)) ++ rest) = c.map f ++ offAddresses rest := by
  induction c with
  | nil => rfl
  | cons o os ih => simp [offAddresses, ih]

theorem onAddresses_map_sendOff_append (f : Int → MIDICNChannelAddress) (c : IChord)
    (rest : List Event) :
    onAddresses (c.map (fun o => Event.sendOff (f o)) ++ rest) = onAddresses rest := by
  induction c with
  | nil => rfl
  | cons o os ih => simp [onAddresses, ih]

theorem onAddresses_press (plus : MIDICNChannelAddress → Int → MIDICNChannelAddress)
    (a : MIDICNChannelAddress) (c : IChord) :
    onAddresses (Event.lock :: sendOnAll plus a c) = a :: c.map (plus a) := by
  simp [onAddresses, sendOnAll, onAddresses_map_sendOn]

theorem offAddresses_press (plus : MIDICNChannelAddress → Int → MIDICNChannelAddress)
    (a : MIDICNChannelAddress) (c : IChord) :
    offAddresses (Event.lock :: sendOnAll plus a c) = [] := by
  simp [offAddresses, sendOnAll, offAddresses_map_sendOn]

theorem offAddresses_release (plus : MIDICNChannelAddress → Int → MIDICNChannelAddress)
    (a : MIDICNChannelAddress) (c : IChord) :
    offAddresses (sendOffAll plus a c ++ [Event.unlock]) = a :: c.map (plus a) := by
  simp [offAddresses, sendOffAll, offAddresses_map_sendOff_append]

theorem onAddresses_release (plus : MIDICNChannelAddress → Int → MIDICNChannelAddress)
    (a : MIDICNChannelAddress) (c : IChord) :
    onAddresses (sendOffAll plus a c ++ [Event.unlock]) = [] := by
  simp [onAddresses, sendOffAll, onAddresses_map_sendOff_append]

theorem quiet_step (plus : MIDICNChannelAddress → Int → MIDICNChannelAddress)
    (c : Call) (b : MIDIChordButton) (h : c.quiet = true) :
    ∃ b1, step plus c b = some (b1, []) ∧ b1.address = b.address ∧ b1.chord = b.chord := by
  cases c with
  | setChord ch => exact ⟨b.setChord ch, rfl, rfl, rfl⟩
  | update bank state =>
    cases state <;> simp [Call.quiet] at h
    · exact ⟨b, update_steady plus bank Button.State.Idle b (by decide) (by decide), rfl, rfl⟩
    · exact ⟨b, update_steady plus bank Button.State.Held b (by decide) (by decide), rfl, rfl⟩

/-- While only quiet calls come, nothing is emitted and neither the address
object nor the playing chord changes. -/
theorem quiet_run (plus : MIDICNChannelAddress → Int → MIDICNChannelAddress)
    (cs : List Call) (b : MIDIChordButton) (h : ∀ c ∈ cs, c.quiet = true) :
    ∃ b1, run plus cs b = some (b1, []) ∧ b1.address = b.address ∧ b1.chord = b.chord := by
  induction cs generalizing b with
  | nil => exact ⟨b, rfl, rfl, rfl⟩
  | cons c cs ih =>
    obtain ⟨b1, h1, ha1, hc1⟩ := quiet_step plus c b (h c (List.mem_cons_self _ _))
    obtain ⟨b2, h2, ha2, hc2⟩ := ih b1 (fun d hd => h d (List.mem_cons_of_mem _ hd))
    exact ⟨b2, by simp [run, h1, h2], ha2.trans ha1, hc2.trans hc1⟩

/-- The shape of one press/release cycle: the press succeeds, the quiet calls
emit nothing, the release succeeds, and both edges use the same address and
the same chord. -/
theorem cycle_shape (plus : MIDICNChannelAddress → Int → MIDICNChannelAddress)
    (b : MIDIChordButton) (bankF bankR : Bank) (held : List Call)
    (hc : b.chord.isSome ∨ b.newChord.isSome) (hq : ∀ c ∈ held, c.quiet = true) :
    ∃ c b1 b2 b3, b.nextChord = some c ∧ b1.chord = some c ∧
      b.update plus bankF Button.State.Falling
        = some (b1, Event.lock :: sendOnAll plus (b.address.getActiveAddress bankF) c) ∧
      run plus held b1 = some (b2, []) ∧
      b2.update plus bankR Button.State.Rising
        = some (b3, sendOffAll plus (b.address.getActiveAddress bankF) c ++ [Event.unlock]) := by
  obtain ⟨c, hn⟩ := nextChord_isSome b hc
  obtain ⟨b2, h2, ha2, hc2⟩ := quiet_run plus held
    { address := b.address.lock bankF, chord := some c, newChord := none } hq
  refine ⟨c, { address := b.address.lock bankF, chord := some c, newChord := none }, b2,
    { b2 with address := b2.address.unlock }, hn, rfl, update_falling plus bankF b c hn, h2, ?_⟩
  rw [update_rising plus bankR b2 c (by rw [hc2]), ha2, getActiveAddress_lock]

theorem run_append (plus : MIDICNChannelAddress → Int → MIDICNChannelAddress)
    (xs ys : List Call) (b b1 b2 : MIDIChordButton) (t1 t2 : List Event)
    (h1 : run plus xs b = some (b1, t1)) (h2 : run plus ys b1 = some (b2, t2)) :
    run plus (xs ++ ys) b = some (b2, t1 ++ t2) := by
  induction xs generalizing b t1 with
  | nil =>
    simp [run] at h1
    obtain ⟨rfl, rfl⟩ := h1
    simpa using h2
  | cons x xs ih =>
    simp only [run, List.cons_append] at h1 ⊢
    cases hs : step plus x b with
    | none => simp [hs] at h1
    | some r =>
      obtain ⟨bx, tx⟩ := r
      simp only [hs] at h1 ⊢
      cases hr : run plus xs bx with
      | none => simp [hr] at h1
      | some r2 =>
        obtain ⟨by1, ty⟩ := r2
        simp only [hr, Option.some.injEq, Prod.mk.injEq] at h1
        obtain ⟨rfl, rfl⟩ := h1
        simp [ih bx ty hr, List.append_assoc]

theorem run_singleton (plus : MIDICNChannelAddress → Int → MIDICNChannelAddress)
    (c : Call) (b b1 : MIDIChordButton) (t : List Event) (h : step plus c b = some (b1, t)) :
    run plus [c] b = some (b1, t) := by
  simp [run, h]

/-- Steady polls leave the whole object as it is and emit nothing. -/
theorem steady_run (plus : MIDICNChannelAddress → Int → MIDICNChannelAddress)
    (cs : List Call) (b : MIDIChordButton) (h : ∀ c ∈ cs, c.steady = true) :
    run plus cs b = some (b, []) := by
  induction cs with
  | nil => rfl
  | cons c cs ih =>
    have hc := h c (List.mem_cons_self _ _)
    have hs : step plus c b = some (b, []) := by
      cases c with
      | setChord ch => simp [Call.steady] at hc
      | update bank state =>
        cases state <;> simp [Call.steady] at hc
        · exact update_steady plus bank Button.State.Idle b (by decide) (by decide)
        · exact update_steady plus bank Button.State.Held b (by decide) (by decide)
    simp [run, hs, ih (fun d hd => h d (List.mem_cons_of_mem _ hd))]

theorem steady_quiet (c : Call) (h : c.steady = true) : c.quiet = true := by
  cases c with
  | setChord ch => simp [Call.steady] at h
  | update bank state => cases state <;> simp [Call.steady] at h <;> rfl

theorem lockCalls_append (t1 t2 : List Event) :
    lockCalls (t1 ++ t2) = lockCalls t1 ++ lockCalls t2 := by
  induction t1 with
  | nil => rfl
  | cons e es ih => cases e <;> simp [lockCalls, ih]

theorem lockCalls_map_sendOn (f : Int → MIDICNChannelAddress) (c : IChord) :
    lockCalls (c.map (fun o => Event.sendOn (f o))) = [] := by
  induction c with
  | nil => rfl
  | cons o os ih => simp [lockCalls, ih]

theorem lockCalls_map_sendOff (f : Int → MIDICNChannelAddress) (c : IChord) :
    lockCalls (c.map (fun o => Event.sendOff (f o))) = [] := by
  induction c with
  | nil => rfl
  | cons o os ih => simp [lockCalls, ih]

theorem lockCalls_press (plus : MIDICNChannelAddress → Int → MIDICNChannelAddress)
    (a : MIDICNChannelAddress) (c : IChord) :
    lockCalls (Event.lock :: sendOnAll plus a c) = [Event.lock] := by
  simp [lockCalls, sendOnAll, lockCalls_map_sendOn]

theorem lockCalls_release (plus : MIDICNChannelAddress → Int → MIDICNChannelAddress)
    (a : MIDICNChannelAddress) (c : IChord) :
    lockCalls (sendOffAll plus a c ++ [Event.unlock]) = [Event.unlock] := by
  simp [lockCalls, sendOffAll, lockCalls_append, lockCalls_map_sendOff]

theorem lockDiscipline_map_sendOn (f : Int → MIDICNChannelAddress) (c : IChord)
    (p : Bool) (rest : List Event) :
    lockDiscipline p (c.map (fun o => Event.sendOn (f o)) ++ rest) = lockDiscipline p rest := by
  induction c with
  | nil => rfl
  | cons o os ih => simp [lockDiscipline, ih]

theorem lockDiscipline_map_sendOff (f : Int → MIDICNChannelAddress) (c : IChord)
    (p : Bool) (rest : List Event) :
    lockDiscipline p (c.map (fun o => Event.sendOff (f o)) ++ rest) = lockDiscipline p rest := by
  induction c with
  | nil => rfl
  | cons o os ih => simp [lockDiscipline, ih]

theorem lockDiscipline_press (plus : MIDICNChannelAddress → Int → MIDICNChannelAddress)
    (a : MIDICNChannelAddress) (c : IChord) (rest : List Event) :
    lockDiscipline false ((Event.lock :: sendOnAll plus a c) ++ rest)
      = lockDiscipline true rest := by
  simp [lockDiscipline, sendOnAll, lockDiscipline_map_sendOn]

theorem lockDiscipline_release (plus : MIDICNChannelAddress → Int → MIDICNChannelAddress)
    (a : MIDICNChannelAddress) (c : IChord) (rest : List Event) :
    lockDiscipline true ((sendOffAll plus a c ++ [Event.unlock]) ++ rest)
      = lockDiscipline false rest := by
  simp [lockDiscipline, sendOffAll, lockDiscipline_map_sendOff]

theorem inv_init (a : MIDICNChannelAddress) (c : IChord) :
    Inv false (MIDIChordButton.init a c) := by
  simp [Inv, MIDIChordButton.init]

/-- Along a call sequence whose edges alternate, every call succeeds, the
invariant is kept, and the trace holds one `lock` per `Falling` and one
`unlock` per `Rising`, each coming in a state where it is allowed. -/
theorem alternates_run (plus : MIDICNChannelAddress → Int → MIDICNChannelAddress)
    (cs : List Call) (p : Bool) (b : MIDIChordButton)
    (hinv : Inv p b) (h : alternates p cs = true) :
    ∃ b1 tr, run plus cs b = some (b1, tr) ∧ Inv (pressedAfter p cs) b1 ∧
      lockCalls tr = edgeLocks cs ∧ lockDiscipline p tr = true := by
  induction cs generalizing p b with
  | nil => exact ⟨b, [], rfl, hinv, rfl, rfl⟩
  | cons c cs ih =>
    cases c with
    | setChord ch =>
      have hinv1 : Inv p (b.setChord ch) := by
        obtain ⟨h1, h2⟩ := hinv
        refine ⟨h1, ?_⟩
        rcases h2 with h2 | ⟨h2, _⟩
        · exact Or.inl h2
        · exact Or.inr ⟨h2, rfl⟩
      obtain ⟨b1, tr, hr, hi, hl, hd⟩ := ih p (b.setChord ch) hinv1 (by simpa [alternates] using h)
      exact ⟨b1, tr, by simp [run, step, hr], by simpa [pressedAfter] using hi,
        by simpa [edgeLocks] using hl, hd⟩
    | update bank state =>
      cases state with
      | Idle =>
        obtain ⟨b1, tr, hr, hi, hl, hd⟩ := ih p b hinv (by simpa [alternates] using h)
        have hs := update_steady plus bank Button.State.Idle b (by decide) (by decide)
        exact ⟨b1, tr, by simp [run, step, hs, hr],
          by simpa [pressedAfter] using hi, by simpa [edgeLocks] using hl, hd⟩
      | Held =>
        obtain ⟨b1, tr, hr, hi, hl, hd⟩ := ih p b hinv (by simpa [alternates] using h)
        have hs := update_steady plus bank Button.State.Held b (by decide) (by decide)
        exact ⟨b1, tr, by simp [run, step, hs, hr],
          by simpa [pressedAfter] using hi, by simpa [edgeLocks] using hl, hd⟩
      | Falling =>
        simp only [alternates, Bool.and_eq_true, Bool.not_eq_true'] at h
        obtain ⟨hp, h⟩ := h
        subst hp
        obtain ⟨c, hn⟩ := nextChord_isSome b (by
          rcases hinv.2 with h2 | ⟨_, h2⟩
          · exact Or.inl h2
          · exact Or.inr h2)
        have hinv1 : Inv true
            { address := b.address.lock bank, chord := some c, newChord := none } := by
          simp [Inv, SingleAddress.lock]
        obtain ⟨b1, tr, hr, hi, hl, hd⟩ := ih true _ hinv1 h
        refine ⟨b1, (Event.lock :: sendOnAll plus (b.address.getActiveAddress bank) c) ++ tr,
          by simp [run, step, update_falling plus bank b c hn, hr],
          by simpa [pressedAfter] using hi, ?_, ?_⟩
        · rw [lockCalls_append, lockCalls_press, hl]; rfl
        · rw [lockDiscipline_press, hd]
      | Rising =>
        simp only [alternates, Bool.and_eq_true] at h
        obtain ⟨hp, h⟩ := h
        subst hp
        obtain ⟨c, hch⟩ : ∃ c, b.chord = some c := by
          rcases hinv.2 with h2 | ⟨h2, _⟩
          · exact Option.isSome_iff_exists.mp h2
          · simp at h2
        have hinv1 : Inv false { b with address := b.address.unlock } := by
          simp [Inv, SingleAddress.unlock, hch]
        obtain ⟨b1, tr, hr, hi, hl, hd⟩ := ih false _ hinv1 h
        refine ⟨b1, (sendOffAll plus (b.address.getActiveAddress bank) c ++ [Event.unlock]) ++ tr,
          by simp [run, step, update_rising plus bank b c hch, hr],
          by simpa [pressedAfter] using hi, ?_, ?_⟩
        · rw [lockCalls_append, lockCalls_release, hl]; rfl
        · rw [lockDiscipline_release, hd]

theorem alternates_append (xs ys : List Call) (p : Bool) :
    alternates p (xs ++ ys) = (alternates p xs && alternates (pressedAfter p xs) ys) := by
  induction xs generalizing p with
  | nil => simp [alternates, pressedAfter]
  | cons c cs ih =>
    cases c with
    | setChord ch => simp [alternates, pressedAfter, ih]
    | update bank state =>
      cases state <;> simp [alternates, pressedAfter, ih, Bool.and_assoc]

theorem edgeLocks_alternate (cs : List Call) (p : Bool) (h : alternates p cs = true) :
    edgeLocks cs = lockUnlockSeq p (edgeLocks cs).length := by
  induction cs generalizing p with
  | nil => cases p <;> rfl
  | cons c cs ih =>
    cases c with
    | setChord ch => simpa [edgeLocks] using ih p (by simpa [alternates] using h)
    | update bank state =>
      cases state with
      | Idle => simpa [edgeLocks] using ih p (by simpa [alternates] using h)
      | Held => simpa [edgeLocks] using ih p (by simpa [alternates] using h)
      | Falling =>
        simp only [alternates, Bool.and_eq_true, Bool.not_eq_true'] at h
        obtain ⟨hp, h⟩ := h
        subst hp
        have := ih true h
        simp only [edgeLocks, List.length_cons, lockUnlockSeq]
        rw [← this]
      | Rising =>
        simp only [alternates, Bool.and_eq_true] at h
        obtain ⟨hp, h⟩ := h
        subst hp
        have := ih false h
        simp only [edgeLocks, List.length_cons, lockUnlockSeq]
        rw [← this]

/-- Without `setChord`, an object that has an active chord and no pending one
keeps both through any `update` calls, and every call returns. -/
theorem updates_keep_chord (plus : MIDICNChannelAddress → Int → MIDICNChannelAddress)
    (cs : List Call) (b : MIDIChordButton) (c : IChord)
    (hc : b.chord = some c) (hn : b.newChord = none) (h : ∀ x ∈ cs, x.isUpdate = true) :
    ∃ b1 t, run plus cs b = some (b1, t) ∧ b1.chord = some c ∧ b1.newChord = none := by
  induction cs generalizing b with
  | nil => exact ⟨b, [], rfl, hc, hn⟩
  | cons x xs ih =>
    have hx := h x (List.mem_cons_self _ _)
    have hxs : ∀ y ∈ xs, y.isUpdate = true := fun y hy => h y (List.mem_cons_of_mem _ hy)
    cases x with
    | setChord ch => simp [Call.isUpdate] at hx
    | update bank state =>
      cases state with
      | Idle =>
        have hs := update_steady plus bank Button.State.Idle b (by decide) (by decide)
        obtain ⟨b1, t, hr, h1, h2⟩ := ih b hc hn hxs
        exact ⟨b1, t, by simp [run, step, hs, hr], h1, h2⟩
      | Held =>
        have hs := update_steady plus bank Button.State.Held b (by decide) (by decide)
        obtain ⟨b1, t, hr, h1, h2⟩ := ih b hc hn hxs
        exact ⟨b1, t, by simp [run, step, hs, hr], h1, h2⟩
      | Falling =>
        have hs := update_falling plus bank b c (by simp [MIDIChordButton.nextChord, hn, hc])
        obtain ⟨b1, t, hr, h1, h2⟩ := ih
          { address := b.address.lock bank, chord := some c, newChord := none } rfl rfl hxs
        exact ⟨b1, (Event.lock :: sendOnAll plus (b.address.getActiveAddress bank) c) ++ t,
          by simp [run, step, hs, hr], h1, h2⟩
      | Rising =>
        have hs := update_rising plus bank b c hc
        obtain ⟨b1, t, hr, h1, h2⟩ := ih { b with address := b.address.unlock } hc hn hxs
        exact ⟨b1, (sendOffAll plus (b.address.getActiveAddress bank) c ++ [Event.unlock]) ++ t,
          by simp [run, step, hs, hr], h1, h2⟩

/-- Two objects that differ at most in the pending chord end in the same state
with the same events once calls other than presses are followed by a
`setChord`. -/
theorem run_setChord_forgets_pending
    (plus : MIDICNChannelAddress → Int → MIDICNChannelAddress)
    (mid : List Call) (c2 : IChord) (b b1 : MIDIChordButton)
    (ha : b.address = b1.address) (hc : b.chord = b1.chord)
    (h : ∀ x ∈ mid, x.noPress = true) :
    run plus (mid ++ [Call.setChord c2]) b = run plus (mid ++ [Call.setChord c2]) b1 := by
  induction mid generalizing b b1 with
  | nil =>
    cases b; cases b1
    simp only at ha hc
    simp [run, step, MIDIChordButton.setChord, ha, hc]
  | cons x xs ih =>
    have hx := h x (List.mem_cons_self _ _)
    have hxs : ∀ y ∈ xs, y.noPress = true := fun y hy => h y (List.mem_cons_of_mem _ hy)
    cases x with
    | setChord ch =>
      have := ih (b.setChord ch) (b1.setChord ch) ha hc hxs
      simp [run, step, this]
    | update bank state =>
      cases state with
      | Idle =>
        have hs := update_steady plus bank Button.State.Idle b (by decide) (by decide)
        have hs1 := update_steady plus bank Button.State.Idle b1 (by decide) (by decide)
        simp [run, step, hs, hs1, ih b b1 ha hc hxs]
      | Held =>
        have hs := update_steady plus bank Button.State.Held b (by decide) (by decide)
        have hs1 := update_steady plus bank Button.State.Held b1 (by decide) (by decide)
        simp [run, step, hs, hs1, ih b b1 ha hc hxs]
      | Falling => simp [Call.noPress] at hx
      | Rising =>
        cases hch : b.chord with
        | none =>
          have hch1 : b1.chord = none := by rw [← hc, hch]
          simp [run, step, MIDIChordButton.update, MIDIChordButton.updateBody, hch, hch1]
        | some c =>
          have hch1 : b1.chord = some c := by rw [← hc, hch]
          have hs := update_rising plus bank b c hch
          have hs1 := update_rising plus bank b1 c hch1
          have := ih { b with address := b.address.unlock }
            { b1 with address := b1.address.unlock } (by simp [ha]) hc hxs
          simp only [ha] at this hs
          simp [run, step, hs, hs1, this]

/-! ## The claims -/

/-- C1: in every press/release cycle (a `Falling` update, then any quiet calls:
`Held`/`Idle` updates under arbitrary bank states and `setChord` calls, then a
`Rising` update under an arbitrary bank state) the addresses given to `sendOff`
by the release are, in order, the addresses given to `sendOn` by the press. -/
theorem release_addresses_eq_press_addresses
    (plus : MIDICNChannelAddress → Int → MIDICNChannelAddress)
    (b : MIDIChordButton) (bankF bankR : Bank) (held : List Call)
    (hc : b.chord.isSome ∨ b.newChord.isSome) (hq : ∀ c ∈ held, c.quiet = true) :
    ∃ b1 t1 b2 t2 b3 t3,
      b.update plus bankF Button.State.Falling = some (b1, t1) ∧
      run plus held b1 = some (b2, t2) ∧
      b2.update plus bankR Button.State.Rising = some (b3, t3) ∧
      offAddresses t3 = onAddresses t1 := by
  obtain ⟨c, b1, b2, b3, _, _, hF, hH, hR⟩ := cycle_shape plus b bankF bankR held hc hq
  exact ⟨b1, _, b2, _, b3, _, hF, hH, hR, by rw [offAddresses_release, onAddresses_press]⟩

/-- Witness of C1: note 60 with chord 3, 7 pressed, then a `setChord` and a
`Held` poll with the bank moved, then released with the bank moved. -/
theorem release_addresses_eq_press_addresses_witness :
    ((MIDIChordButton.init note60 [3, 7]).chord.isSome
        ∨ (MIDIChordButton.init note60 [3, 7]).newChord.isSome) ∧
    (∀ c ∈ [Call.setChord [4, 7], Call.update Bank.shift4 Button.State.Held],
        c.quiet = true) ∧
    ∃ b1 t1 b2 t2 b3 t3,
      (MIDIChordButton.init note60 [3, 7]).update MIDICNChannelAddress.add Bank.identity
        Button.State.Falling = some (b1, t1) ∧
      run MIDICNChannelAddress.add
        [Call.setChord [4, 7], Call.update Bank.shift4 Button.State.Held] b1 = some (b2, t2) ∧
      b2.update MIDICNChannelAddress.add Bank.shift4 Button.State.Rising = some (b3, t3) ∧
      offAddresses t3 = onAddresses t1 :=
  ⟨by decide, by simp [Call.quiet],
   release_addresses_eq_press_addresses MIDICNChannelAddress.add _ Bank.identity Bank.shift4 _
     (by decide) (by simp [Call.quiet])⟩

/-- C2: a chord `c` set with `setChord` while the button is held (after the
`Falling` update, among any quiet calls, and being the chord staged when the
button is released) does not touch the release: the `Rising` update sends the
note-offs of the chord `c0` that was active at the `Falling` edge, and the next
`Falling` update sends the note-ons of `c`.  The events of the whole scenario
are: lock, note-ons of `c0`, note-offs of `c0`, unlock, lock, note-ons of `c`. -/
theorem setChord_while_held_is_deferred
    (plus : MIDICNChannelAddress → Int → MIDICNChannelAddress)
    (b : MIDIChordButton) (bankF bankR bankF2 : Bank) (c : IChord)
    (before after idle : List Call)
    (hc : b.chord.isSome ∨ b.newChord.isSome)
    (hb : ∀ x ∈ before, x.quiet = true) (ha : ∀ x ∈ after, x.steady = true)
    (hi : ∀ x ∈ idle, x.steady = true) :
    ∃ c0 b1 b2 b3 b5,
      b.nextChord = some c0 ∧
      b.update plus bankF Button.State.Falling
        = some (b1, Event.lock :: sendOnAll plus (b.address.getActiveAddress bankF) c0) ∧
      run plus (before ++ [Call.setChord c] ++ after) b1 = some (b2, []) ∧
      b2.update plus bankR Button.State.Rising
        = some (b3, sendOffAll plus (b.address.getActiveAddress bankF) c0 ++ [Event.unlock]) ∧
      run plus idle b3 = some (b3, []) ∧
      b3.update plus bankF2 Button.State.Falling
        = some (b5, Event.lock :: sendOnAll plus (bankF2 b.address.base) c) := by
  obtain ⟨c0, hn⟩ := nextChord_isSome b hc
  obtain ⟨b1', h1, ha1, hc1⟩ := quiet_run plus before
    { address := b.address.lock bankF, chord := some c0, newChord := none } hb
  have h2 := steady_run plus after (b1'.setChord c) ha
  have hmid := run_append plus _ _ _ _ _ _ _
    (run_append plus _ _ _ _ _ _ _ h1
      (run_singleton plus (Call.setChord c) b1' (b1'.setChord c) [] rfl)) h2
  have hch : (b1'.setChord c).chord = some c0 := by
    simpa [MIDIChordButton.setChord] using hc1
  have had : (b1'.setChord c).address = b.address.lock bankF := by
    simpa [MIDIChordButton.setChord] using ha1
  refine ⟨c0, { address := b.address.lock bankF, chord := some c0, newChord := none },
    b1'.setChord c, { b1'.setChord c with address := (b1'.setChord c).address.unlock },
    { address := (b1'.setChord c).address.unlock.lock bankF2, chord := some c, newChord := none },
    hn, update_falling plus bankF b c0 hn, by simpa using hmid, ?_, steady_run plus idle _ hi, ?_⟩
  · rw [update_rising plus bankR _ c0 hch, had, getActiveAddress_lock]
  · rw [update_falling plus bankF2 _ c
      (by simp [MIDIChordButton.nextChord, MIDIChordButton.setChord])]
    simp [had, SingleAddress.unlock, SingleAddress.lock, SingleAddress.getActiveAddress]

/-- Witness of C2: base note 60 with chord 3, 7 pressed, `setChord` of 4, 7 while
held, released with the bank moved, pressed again: the release sends note-offs
60, 63, 67 and the next press note-ons 60, 64, 67. -/
theorem setChord_while_held_is_deferred_witness :
    ((MIDIChordButton.init note60 [3, 7]).chord.isSome
        ∨ (MIDIChordButton.init note60 [3, 7]).newChord.isSome) ∧
    (∀ x ∈ ([] : List Call), x.quiet = true) ∧
    (∀ x ∈ [Call.update Bank.shift4 Button.State.Held], x.steady = true) ∧
    (∀ x ∈ [Call.update Bank.identity Button.State.Idle], x.steady = true) ∧
    (∃ c0 b1 b2 b3 b5,
      (MIDIChordButton.init note60 [3, 7]).nextChord = some c0 ∧
      (MIDIChordButton.init note60 [3, 7]).update MIDICNChannelAddress.add Bank.identity
          Button.State.Falling
        = some (b1, Event.lock :: sendOnAll MIDICNChannelAddress.add
            ((MIDIChordButton.init note60 [3, 7]).address.getActiveAddress Bank.identity) c0) ∧
      run MIDICNChannelAddress.add
        ([] ++ [Call.setChord [4, 7]] ++ [Call.update Bank.shift4 Button.State.Held]) b1
        = some (b2, []) ∧
      b2.update MIDICNChannelAddress.add Bank.shift4 Button.State.Rising
        = some (b3, sendOffAll MIDICNChannelAddress.add
            ((MIDIChordButton.init note60 [3, 7]).address.getActiveAddress Bank.identity) c0
            ++ [Event.unlock]) ∧
      run MIDICNChannelAddress.add [Call.update Bank.identity Button.State.Idle] b3
        = some (b3, []) ∧
      b3.update MIDICNChannelAddress.add Bank.identity Button.State.Falling
        = some (b5, Event.lock :: sendOnAll MIDICNChannelAddress.add
            (Bank.identity (MIDIChordButton.init note60 [3, 7]).address.base) [4, 7])) ∧
    Option.map Prod.snd (run MIDICNChannelAddress.add
      [Call.update Bank.identity Button.State.Falling,
       Call.setChord [4, 7],
       Call.update Bank.shift4 Button.State.Held,
       Call.update Bank.shift4 Button.State.Rising,
       Call.update Bank.identity Button.State.Idle,
       Call.update Bank.identity Button.State.Falling] (MIDIChordButton.init note60 [3, 7]))
      = some [Event.lock,
          Event.sendOn (noteAt 60), Event.sendOn (noteAt 63), Event.sendOn (noteAt 67),
          Event.sendOff (noteAt 60), Event.sendOff (noteAt 63), Event.sendOff (noteAt 67),
          Event.unlock, Event.lock,
          Event.sendOn (noteAt 60), Event.sendOn (noteAt 64), Event.sendOn (noteAt 67)] :=
  ⟨by decide, by simp, by simp [Call.steady], by simp [Call.steady],
   setChord_while_held_is_deferred MIDICNChannelAddress.add _ Bank.identity Bank.shift4
     Bank.identity [4, 7] [] _ _ (by decide) (by simp) (by simp [Call.steady])
     (by simp [Call.steady]),
   by decide⟩

/-- C3: in every state that has a chord to play (pending or active), `update`
on a `Falling` edge makes the pending chord, if there is one, the active chord
and empties the pending slot, locks the address, and emits exactly
`lock(), sendOn(addr), sendOn(addr + o_1), ..., sendOn(addr + o_n)` where `addr`
is the address resolved after locking and `o_1..o_n` are the offsets of the new
active chord in stored order; no `sendOff` is emitted and the base note is the
first note sent. -/
theorem falling_update_commits_locks_and_sends
    (plus : MIDICNChannelAddress → Int → MIDICNChannelAddress)
    (bank : Bank) (b : MIDIChordButton) (hc : b.chord.isSome ∨ b.newChord.isSome) :
    ∃ c b1 t,
      b.update plus bank Button.State.Falling = some (b1, t) ∧
      (∀ p, b.newChord = some p → c = p) ∧
      (b.newChord = none → b.chord = some c) ∧
      b1.chord = some c ∧ b1.newChord = none ∧
      b1.address = b.address.lock bank ∧
      b1.address.locked = some (b1.address.getActiveAddress bank) ∧
      t = Event.lock :: Event.sendOn (b1.address.getActiveAddress bank)
            :: c.map (fun o => Event.sendOn (plus (b1.address.getActiveAddress bank) o)) ∧
      onAddresses t = b1.address.getActiveAddress bank
            :: c.map (plus (b1.address.getActiveAddress bank)) ∧
      offAddresses t = [] := by
  obtain ⟨c, hn⟩ := nextChord_isSome b hc
  refine ⟨c, { address := b.address.lock bank, chord := some c, newChord := none },
    Event.lock :: sendOnAll plus (b.address.getActiveAddress bank) c,
    update_falling plus bank b c hn, ?_, ?_, rfl, rfl, rfl, ?_, ?_, ?_, ?_⟩
  · intro p hp
    simp [MIDIChordButton.nextChord, hp] at hn
    exact hn.symm
  · intro hp
    simpa [MIDIChordButton.nextChord, hp] using hn
  · simp [SingleAddress.lock, SingleAddress.getActiveAddress]
  · simp [sendOnAll, getActiveAddress_lock]
  · simp [onAddresses_press, getActiveAddress_lock]
  · exact offAddresses_press plus _ c

/-- Witness of C3: the first press of a fresh button on note 60 with chord 3, 7
while the bank moves every note four semitones up. -/
theorem falling_update_commits_locks_and_sends_witness :
    ((MIDIChordButton.init note60 [3, 7]).chord.isSome
        ∨ (MIDIChordButton.init note60 [3, 7]).newChord.isSome) ∧
    (∃ c b1 t,
      (MIDIChordButton.init note60 [3, 7]).update MIDICNChannelAddress.add Bank.shift4
        Button.State.Falling = some (b1, t) ∧
      (∀ p, (MIDIChordButton.init note60 [3, 7]).newChord = some p → c = p) ∧
      ((MIDIChordButton.init note60 [3, 7]).newChord = none →
        (MIDIChordButton.init note60 [3, 7]).chord = some c) ∧
      b1.chord = some c ∧ b1.newChord = none ∧
      b1.address = (MIDIChordButton.init note60 [3, 7]).address.lock Bank.shift4 ∧
      b1.address.locked = some (b1.address.getActiveAddress Bank.shift4) ∧
      t = Event.lock :: Event.sendOn (b1.address.getActiveAddress Bank.shift4)
            :: c.map (fun o => Event.sendOn
                (MIDICNChannelAddress.add (b1.address.getActiveAddress Bank.shift4) o)) ∧
      onAddresses t = b1.address.getActiveAddress Bank.shift4
            :: c.map (MIDICNChannelAddress.add (b1.address.getActiveAddress Bank.shift4)) ∧
      offAddresses t = []) ∧
    (MIDIChordButton.init note60 [3, 7]).update MIDICNChannelAddress.add Bank.shift4
        Button.State.Falling
      = some ({ address := { base := note60, locked := some (noteAt 64) },
                chord := some [3, 7], newChord := none },
              [Event.lock, Event.sendOn (noteAt 64), Event.sendOn (noteAt 67),
               Event.sendOn (noteAt 71)]) :=
  ⟨by decide,
   falling_update_commits_locks_and_sends MIDICNChannelAddress.add Bank.shift4 _ (by decide),
   by decide⟩

/-- C4: in every press/release cycle the `Falling` update makes as many
`sendOn` calls as the matching `Rising` update makes `sendOff` calls, namely
one more than the size of the chord that is active during the cycle (the
press sends no note-off and the release no note-on). -/
theorem cycle_sendOn_count_eq_sendOff_count
    (plus : MIDICNChannelAddress → Int → MIDICNChannelAddress)
    (b : MIDIChordButton) (bankF bankR : Bank) (held : List Call)
    (hc : b.chord.isSome ∨ b.newChord.isSome) (hq : ∀ c ∈ held, c.quiet = true) :
    ∃ c b1 t1 b2 t2 b3 t3,
      b.update plus bankF Button.State.Falling = some (b1, t1) ∧
      run plus held b1 = some (b2, t2) ∧
      b2.update plus bankR Button.State.Rising = some (b3, t3) ∧
      b1.chord = some c ∧ b2.chord = some c ∧
      (onAddresses t1).length = (offAddresses t3).length ∧
      (onAddresses t1).length = 1 + c.length ∧
      (offAddresses t3).length = 1 + c.length ∧
      offAddresses t1 = [] ∧ onAddresses t2 = [] ∧ offAddresses t2 = [] ∧
      onAddresses t3 = [] := by
  obtain ⟨c, b1, b2, b3, _, hc1, hF, hH, hR⟩ := cycle_shape plus b bankF bankR held hc hq
  obtain ⟨b2', hH', _, hc2⟩ := quiet_run plus held b1 hq
  rw [hH] at hH'
  simp only [Option.some.injEq, Prod.mk.injEq, and_true] at hH'
  subst hH'
  refine ⟨c, b1, _, b2, _, b3, _, hF, hH, hR, hc1, hc2.trans hc1, ?_, ?_, ?_, ?_, rfl, rfl, ?_⟩
  · rw [offAddresses_release, onAddresses_press]
  · rw [onAddresses_press]; simp [Nat.add_comm]
  · rw [offAddresses_release]; simp [Nat.add_comm]
  · exact offAddresses_press plus _ c
  · exact onAddresses_release plus _ c

/-- Witness of C4: note 60 with chord 3, 7: three note-ons, three note-offs. -/
theorem cycle_sendOn_count_eq_sendOff_count_witness :
    ((MIDIChordButton.init note60 [3, 7]).chord.isSome
        ∨ (MIDIChordButton.init note60 [3, 7]).newChord.isSome) ∧
    (∀ c ∈ [Call.update Bank.shift4 Button.State.Held, Call.setChord [4]], c.quiet = true) ∧
    ∃ c b1 t1 b2 t2 b3 t3,
      (MIDIChordButton.init note60 [3, 7]).update MIDICNChannelAddress.add Bank.identity
        Button.State.Falling = some (b1, t1) ∧
      run MIDICNChannelAddress.add
        [Call.update Bank.shift4 Button.State.Held, Call.setChord [4]] b1 = some (b2, t2) ∧
      b2.update MIDICNChannelAddress.add Bank.shift4 Button.State.Rising = some (b3, t3) ∧
      b1.chord = some c ∧ b2.chord = some c ∧
      (onAddresses t1).length = (offAddresses t3).length ∧
      (onAddresses t1).length = 1 + c.length ∧
      (offAddresses t3).length = 1 + c.length ∧
      offAddresses t1 = [] ∧ onAddresses t2 = [] ∧ offAddresses t2 = [] ∧
      onAddresses t3 = [] :=
  ⟨by decide, by simp [Call.quiet],
   cycle_sendOn_count_eq_sendOff_count MIDICNChannelAddress.add _ Bank.identity Bank.shift4 _
     (by decide) (by simp [Call.quiet])⟩

/-- C5: for every sequence of `update` and `setChord` calls on a freshly
constructed button whose edges alternate `Falling`, `Rising`, ... (starting with
`Falling`, steady polls anywhere), every call returns and the calls on the
address are one `lock()` per `Falling` and one `unlock()` per `Rising`, in call
order, hence lock, unlock, lock, ...: once each per cycle, lock first.  No
`lock()` comes while locked and no `unlock()` while not locked, both on the
replayed trace and on the lock flag of the object before each edge. -/
theorem lock_unlock_once_per_cycle
    (plus : MIDICNChannelAddress → Int → MIDICNChannelAddress)
    (a : MIDICNChannelAddress) (c : IChord) (calls : List Call)
    (h : alternates false calls = true) :
    ∃ b tr, run plus calls (MIDIChordButton.init a c) = some (b, tr) ∧
      lockCalls tr = edgeLocks calls ∧
      lockCalls tr = lockUnlockSeq false (edgeLocks calls).length ∧
      lockDiscipline false tr = true ∧
      b.address.locked.isSome = pressedAfter false calls ∧
      ∀ pre bank state post, calls = pre ++ Call.update bank state :: post →
        ∃ b0 t0, run plus pre (MIDIChordButton.init a c) = some (b0, t0) ∧
          (state = Button.State.Falling → b0.address.locked = none) ∧
          (state = Button.State.Rising → b0.address.locked.isSome = true) := by
  obtain ⟨b, tr, hr, hi, hl, hd⟩ := alternates_run plus calls false _ (inv_init a c) h
  refine ⟨b, tr, hr, hl, ?_, hd, hi.1, ?_⟩
  · rw [hl]; exact edgeLocks_alternate calls false h
  · intro pre bank state post hcalls
    subst hcalls
    rw [alternates_append, Bool.and_eq_true] at h
    obtain ⟨hpre, hrest⟩ := h
    obtain ⟨b0, t0, hr0, hi0, _, _⟩ := alternates_run plus pre false _ (inv_init a c) hpre
    refine ⟨b0, t0, hr0, ?_, ?_⟩
    · intro hs
      subst hs
      simp only [alternates, Bool.and_eq_true, Bool.not_eq_true'] at hrest
      have := hi0.1
      rw [hrest.1] at this
      simpa using this
    · intro hs
      subst hs
      simp only [alternates, Bool.and_eq_true] at hrest
      have := hi0.1
      rw [hrest.1] at this
      exact this

/-- Witness of C5: two full cycles with a `setChord` and steady polls between
the edges. -/
theorem lock_unlock_once_per_cycle_witness :
    alternates false
      [Call.update Bank.identity Button.State.Falling, Call.setChord [4, 7],
       Call.update Bank.shift4 Button.State.Held, Call.update Bank.shift4 Button.State.Rising,
       Call.update Bank.shift4 Button.State.Idle, Call.update Bank.shift4 Button.State.Falling,
       Call.update Bank.identity Button.State.Rising] = true ∧
    ∃ b tr, run MIDICNChannelAddress.add
        [Call.update Bank.identity Button.State.Falling, Call.setChord [4, 7],
         Call.update Bank.shift4 Button.State.Held, Call.update Bank.shift4 Button.State.Rising,
         Call.update Bank.shift4 Button.State.Idle, Call.update Bank.shift4 Button.State.Falling,
         Call.update Bank.identity Button.State.Rising]
        (MIDIChordButton.init note60 [3, 7]) = some (b, tr) ∧
      lockCalls tr = edgeLocks
        [Call.update Bank.identity Button.State.Falling, Call.setChord [4, 7],
         Call.update Bank.shift4 Button.State.Held, Call.update Bank.shift4 Button.State.Rising,
         Call.update Bank.shift4 Button.State.Idle, Call.update Bank.shift4 Button.State.Falling,
         Call.update Bank.identity Button.State.Rising] ∧
      lockCalls tr = lockUnlockSeq false (edgeLocks
        [Call.update Bank.identity Button.State.Falling, Call.setChord [4, 7],
         Call.update Bank.shift4 Button.State.Held, Call.update Bank.shift4 Button.State.Rising,
         Call.update Bank.shift4 Button.State.Idle, Call.update Bank.shift4 Button.State.Falling,
         Call.update Bank.identity Button.State.Rising]).length ∧
      lockDiscipline false tr = true ∧
      b.address.locked.isSome = pressedAfter false
        [Call.update Bank.identity Button.State.Falling, Call.setChord [4, 7],
         Call.update Bank.shift4 Button.State.Held, Call.update Bank.shift4 Button.State.Rising,
         Call.update Bank.shift4 Button.State.Idle, Call.update Bank.shift4 Button.State.Falling,
         Call.update Bank.identity Button.State.Rising] ∧
      ∀ pre bank state post,
        [Call.update Bank.identity Button.State.Falling, Call.setChord [4, 7],
         Call.update Bank.shift4 Button.State.Held, Call.update Bank.shift4 Button.State.Rising,
         Call.update Bank.shift4 Button.State.Idle, Call.update Bank.shift4 Button.State.Falling,
         Call.update Bank.identity Button.State.Rising]
          = pre ++ Call.update bank state :: post →
        ∃ b0 t0, run MIDICNChannelAddress.add pre (MIDIChordButton.init note60 [3, 7])
            = some (b0, t0) ∧
          (state = Button.State.Falling → b0.address.locked = none) ∧
          (state = Button.State.Rising → b0.address.locked.isSome = true) :=
  ⟨rfl, lock_unlock_once_per_cycle MIDICNChannelAddress.add note60 [3, 7] _ rfl⟩

/-- C6, as stated, fails: under a bank that moves every note four
semitones up, the first press of a fresh button on base note 60 with chord
3, 7 does not send note-ons for 60, 63, 67 (it sends 64, 67, 71). -/
theorem first_press_base_address_counterexample :
    ¬ ∃ b1 t1,
      (MIDIChordButton.init note60 [3, 7]).update MIDICNChannelAddress.add Bank.shift4
        Button.State.Falling = some (b1, t1) ∧
      onAddresses t1 = note60 :: [3, 7].map (MIDICNChannelAddress.add note60) := by
  rintro ⟨b1, t1, h, h2⟩
  have hu : (MIDIChordButton.init note60 [3, 7]).update MIDICNChannelAddress.add Bank.shift4
      Button.State.Falling
      = some ({ address := { base := note60, locked := some (noteAt 64) },
                chord := some [3, 7], newChord := none },
              [Event.lock, Event.sendOn (noteAt 64), Event.sendOn (noteAt 67),
               Event.sendOn (noteAt 71)]) := by decide
  rw [hu] at h
  simp only [Option.some.injEq, Prod.mk.injEq] at h
  obtain ⟨_, rfl⟩ := h
  revert h2
  decide

/-- C6, amended: for every base address `a` and chord `c` given to the
constructor, the first press of the fresh button (no `setChord` before it)
sends `sendOn(r)`, then `sendOn(r + o)` for each offset `o` of `c` in order,
where `r` is the address the bank gives to `a` at the press, and the following
release sends the same addresses with `sendOff`; when the bank leaves `a` in
place these are `a` and `a + o`. -/
theorem first_press_and_release
    (plus : MIDICNChannelAddress → Int → MIDICNChannelAddress)
    (a : MIDICNChannelAddress) (c : IChord) (bankF bankR : Bank) (held : List Call)
    (hq : ∀ x ∈ held, x.quiet = true) :
    ∃ b1 b2 b3,
      (MIDIChordButton.init a c).update plus bankF Button.State.Falling
        = some (b1, Event.lock :: Event.sendOn (bankF a)
            :: c.map (fun o => Event.sendOn (plus (bankF a) o))) ∧
      run plus held b1 = some (b2, []) ∧
      b2.update plus bankR Button.State.Rising
        = some (b3, Event.sendOff (bankF a)
            :: c.map (fun o => Event.sendOff (plus (bankF a) o)) ++ [Event.unlock]) ∧
      (bankF a = a →
        (MIDIChordButton.init a c).update plus bankF Button.State.Falling
          = some (b1, Event.lock :: Event.sendOn a
              :: c.map (fun o => Event.sendOn (plus a o))) ∧
        b2.update plus bankR Button.State.Rising
          = some (b3, Event.sendOff a
              :: c.map (fun o => Event.sendOff (plus a o)) ++ [Event.unlock])) := by
  obtain ⟨c0, b1, b2, b3, hn, _, hF, hH, hR⟩ :=
    cycle_shape plus (MIDIChordButton.init a c) bankF bankR held (Or.inr rfl) hq
  have hc0 : c0 = c := by
    simp [MIDIChordButton.nextChord, MIDIChordButton.init] at hn
    exact hn.symm
  subst hc0
  have hr : (MIDIChordButton.init a c0).address.getActiveAddress bankF = bankF a := rfl
  rw [hr] at hF hR
  refine ⟨b1, b2, b3, hF, hH, hR, ?_⟩
  intro hid
  rw [hid] at hF hR
  exact ⟨hF, hR⟩

/-- Witness of C6 as amended: base note 60 on channel 1, cable 0, chord 3, 7,
the bank leaving the address in place: note-ons 60, 63, 67, then note-offs
60, 63, 67. -/
theorem first_press_and_release_witness :
    (∀ x ∈ [Call.update Bank.shift4 Button.State.Held], x.quiet = true) ∧
    (∃ b1 b2 b3,
      (MIDIChordButton.init note60 [3, 7]).update MIDICNChannelAddress.add Bank.identity
          Button.State.Falling
        = some (b1, Event.lock :: Event.sendOn (Bank.identity note60)
            :: [3, 7].map (fun o => Event.sendOn
                (MIDICNChannelAddress.add (Bank.identity note60) o))) ∧
      run MIDICNChannelAddress.add [Call.update Bank.shift4 Button.State.Held] b1
        = some (b2, []) ∧
      b2.update MIDICNChannelAddress.add Bank.shift4 Button.State.Rising
        = some (b3, Event.sendOff (Bank.identity note60)
            :: [3, 7].map (fun o => Event.sendOff
                (MIDICNChannelAddress.add (Bank.identity note60) o)) ++ [Event.unlock]) ∧
      (Bank.identity note60 = note60 →
        (MIDIChordButton.init note60 [3, 7]).update MIDICNChannelAddress.add Bank.identity
            Button.State.Falling
          = some (b1, Event.lock :: Event.sendOn note60
              :: [3, 7].map (fun o => Event.sendOn (MIDICNChannelAddress.add note60 o))) ∧
        b2.update MIDICNChannelAddress.add Bank.shift4 Button.State.Rising
          = some (b3, Event.sendOff note60
              :: [3, 7].map (fun o => Event.sendOff (MIDICNChannelAddress.add note60 o))
                ++ [Event.unlock]))) ∧
    Option.map Prod.snd (run MIDICNChannelAddress.add
      [Call.update Bank.identity Button.State.Falling,
       Call.update Bank.shift4 Button.State.Held,
       Call.update Bank.shift4 Button.State.Rising] (MIDIChordButton.init note60 [3, 7]))
      = some [Event.lock,
          Event.sendOn (noteAt 60), Event.sendOn (noteAt 63), Event.sendOn (noteAt 67),
          Event.sendOff (noteAt 60), Event.sendOff (noteAt 63), Event.sendOff (noteAt 67),
          Event.unlock] :=
  ⟨by simp [Call.quiet],
   first_press_and_release MIDICNChannelAddress.add note60 [3, 7] Bank.identity Bank.shift4 _
     (by simp [Call.quiet]),
   by decide⟩

/-- C7, as stated, fails: right after construction with chord 3, 7 the active
chord is not that chord (the pointer is null). -/
theorem active_chord_after_construction_counterexample :
    ¬ ((MIDIChordButton.init note60 [3, 7]).chord = some [3, 7]) := by
  decide

/-- Quiet calls keep a pending chord pending (the one staged last), emit
nothing and leave the address object and the active chord alone. -/
theorem quiet_run_pending (plus : MIDICNChannelAddress → Int → MIDICNChannelAddress)
    (cs : List Call) (b : MIDIChordButton) (h : ∀ x ∈ cs, x.quiet = true)
    (hp : b.newChord.isSome = true) :
    ∃ b1 c1, run plus cs b = some (b1, []) ∧ b1.address = b.address ∧
      b1.chord = b.chord ∧ b1.newChord = some c1 := by
  induction cs generalizing b with
  | nil =>
    obtain ⟨c1, hc1⟩ := Option.isSome_iff_exists.mp hp
    exact ⟨b, c1, rfl, rfl, rfl, hc1⟩
  | cons x xs ih =>
    have hx := h x (List.mem_cons_self _ _)
    have hxs : ∀ y ∈ xs, y.quiet = true := fun y hy => h y (List.mem_cons_of_mem _ hy)
    cases x with
    | setChord ch =>
      obtain ⟨b1, c1, hr, ha, hc, hn⟩ := ih (b.setChord ch) hxs rfl
      exact ⟨b1, c1, by simp [run, step, hr], ha, hc, hn⟩
    | update bank state =>
      cases state with
      | Idle =>
        have hs := update_steady plus bank Button.State.Idle b (by decide) (by decide)
        obtain ⟨b1, c1, hr, ha, hc, hn⟩ := ih b hxs hp
        exact ⟨b1, c1, by simp [run, step, hs, hr], ha, hc, hn⟩
      | Held =>
        have hs := update_steady plus bank Button.State.Held b (by decide) (by decide)
        obtain ⟨b1, c1, hr, ha, hc, hn⟩ := ih b hxs hp
        exact ⟨b1, c1, by simp [run, step, hs, hr], ha, hc, hn⟩
      | Falling => simp [Call.quiet] at hx
      | Rising => simp [Call.quiet] at hx

/-- C7, amended: right after construction with chord `c`, before any `update`,
there is no active chord and `c` is the pending chord.  The active chord is
only adopted at the first `Falling` edge: after any quiet calls (steady polls,
`setChord` calls) there is still no active chord, and the first `Falling`
update makes the chord that is pending then the active chord and leaves the
pending slot empty; that chord is `c` when no `setChord` call came before. -/
theorem constructor_stages_chord
    (plus : MIDICNChannelAddress → Int → MIDICNChannelAddress)
    (a : MIDICNChannelAddress) (c : IChord) (bank : Bank) (pre : List Call)
    (hq : ∀ x ∈ pre, x.quiet = true) :
    (MIDIChordButton.init a c).chord = none ∧
    (MIDIChordButton.init a c).newChord = some c ∧
    (MIDIChordButton.init a c).address.locked = none ∧
    ∃ b0 c1 b1 t,
      run plus pre (MIDIChordButton.init a c) = some (b0, []) ∧
      b0.chord = none ∧ b0.newChord = some c1 ∧
      b0.update plus bank Button.State.Falling = some (b1, t) ∧
      b1.chord = some c1 ∧ b1.newChord = none ∧
      ((∀ x ∈ pre, x.steady = true) → c1 = c) := by
  obtain ⟨b0, c1, hr, _, hc, hn⟩ := quiet_run_pending plus pre (MIDIChordButton.init a c) hq rfl
  have hnext : b0.nextChord = some c1 := by simp [MIDIChordButton.nextChord, hn]
  refine ⟨rfl, rfl, rfl, b0, c1,
    { address := b0.address.lock bank, chord := some c1, newChord := none },
    Event.lock :: sendOnAll plus (b0.address.getActiveAddress bank) c1,
    hr, hc, hn, update_falling plus bank b0 c1 hnext, rfl, rfl, ?_⟩
  intro hs
  have hr2 := steady_run plus pre (MIDIChordButton.init a c) hs
  rw [hr] at hr2
  simp only [Option.some.injEq, Prod.mk.injEq, and_true] at hr2
  subst hr2
  have : some c1 = some c := hn.symm.trans rfl
  exact Option.some.inj this

/-- Witness of C7 as amended: a fresh button on note 60 with chord 3, 7, polled
twice before the first press. -/
theorem constructor_stages_chord_witness :
    (∀ x ∈ [Call.update Bank.identity Button.State.Idle,
            Call.update Bank.shift4 Button.State.Idle], x.quiet = true) ∧
    ((MIDIChordButton.init note60 [3, 7]).chord = none ∧
    (MIDIChordButton.init note60 [3, 7]).newChord = some [3, 7] ∧
    (MIDIChordButton.init note60 [3, 7]).address.locked = none ∧
    ∃ b0 c1 b1 t,
      run MIDICNChannelAddress.add
        [Call.update Bank.identity Button.State.Idle,
         Call.update Bank.shift4 Button.State.Idle]
        (MIDIChordButton.init note60 [3, 7]) = some (b0, []) ∧
      b0.chord = none ∧ b0.newChord = some c1 ∧
      b0.update MIDICNChannelAddress.add Bank.identity Button.State.Falling = some (b1, t) ∧
      b1.chord = some c1 ∧ b1.newChord = none ∧
      ((∀ x ∈ [Call.update Bank.identity Button.State.Idle,
               Call.update Bank.shift4 Button.State.Idle], x.steady = true) →
        c1 = [3, 7])) :=
  ⟨by simp [Call.quiet],
   constructor_stages_chord MIDICNChannelAddress.add note60 [3, 7] Bank.identity _
     (by simp [Call.quiet])⟩

/-- C8: a pending chord `c` is consumed exactly once: the `Falling` update
makes it the active chord, plays it and leaves the pending slot empty; after
any later `update` calls (no `setChord` among them) the active chord is still
`c`, the pending slot is still empty, and a further `Falling` update plays the
offsets of `c` again and keeps `c`. -/
theorem pending_chord_consumed_once
    (plus : MIDICNChannelAddress → Int → MIDICNChannelAddress)
    (b : MIDIChordButton) (c : IChord) (bank bank2 : Bank) (later : List Call)
    (hp : b.newChord = some c) (hl : ∀ x ∈ later, x.isUpdate = true) :
    ∃ b1 b2 t2 b3,
      b.update plus bank Button.State.Falling
        = some (b1, Event.lock :: sendOnAll plus (b.address.getActiveAddress bank) c) ∧
      b1.newChord = none ∧ b1.chord = some c ∧
      run plus later b1 = some (b2, t2) ∧
      b2.chord = some c ∧ b2.newChord = none ∧
      b2.update plus bank2 Button.State.Falling
        = some (b3, Event.lock :: sendOnAll plus (b2.address.getActiveAddress bank2) c) ∧
      b3.chord = some c ∧ b3.newChord = none := by
  have hn : b.nextChord = some c := by simp [MIDIChordButton.nextChord, hp]
  obtain ⟨b2, t2, hr, hc2, hn2⟩ := updates_keep_chord plus later
    { address := b.address.lock bank, chord := some c, newChord := none } c rfl rfl hl
  exact ⟨{ address := b.address.lock bank, chord := some c, newChord := none }, b2, t2,
    { address := b2.address.lock bank2, chord := some c, newChord := none },
    update_falling plus bank b c hn, rfl, rfl, hr, hc2, hn2,
    update_falling plus bank2 b2 c (by simp [MIDIChordButton.nextChord, hn2, hc2]), rfl, rfl⟩

/-- Witness of C8: chord 4, 7 staged over an active chord 3, 7, pressed,
then released, polled and pressed again. -/
theorem pending_chord_consumed_once_witness :
    ({ address := { base := note60, locked := none }, chord := some [3, 7],
       newChord := some [4, 7] } : MIDIChordButton).newChord = some [4, 7] ∧
    (∀ x ∈ [Call.update Bank.shift4 Button.State.Rising,
            Call.update Bank.shift4 Button.State.Idle], x.isUpdate = true) ∧
    ∃ b1 b2 t2 b3,
      ({ address := { base := note60, locked := none }, chord := some [3, 7],
         newChord := some [4, 7] } : MIDIChordButton).update MIDICNChannelAddress.add
          Bank.identity Button.State.Falling
        = some (b1, Event.lock :: sendOnAll MIDICNChannelAddress.add
            (({ address := { base := note60, locked := none }, chord := some [3, 7],
                newChord := some [4, 7] } : MIDIChordButton).address.getActiveAddress
              Bank.identity) [4, 7]) ∧
      b1.newChord = none ∧ b1.chord = some [4, 7] ∧
      run MIDICNChannelAddress.add [Call.update Bank.shift4 Button.State.Rising,
        Call.update Bank.shift4 Button.State.Idle] b1 = some (b2, t2) ∧
      b2.chord = some [4, 7] ∧ b2.newChord = none ∧
      b2.update MIDICNChannelAddress.add Bank.shift4 Button.State.Falling
        = some (b3, Event.lock :: sendOnAll MIDICNChannelAddress.add
            (b2.address.getActiveAddress Bank.shift4) [4, 7]) ∧
      b3.chord = some [4, 7] ∧ b3.newChord = none :=
  ⟨rfl, by simp [Call.isUpdate],
   pending_chord_consumed_once MIDICNChannelAddress.add _ [4, 7] Bank.identity Bank.shift4 _
     rfl (by simp [Call.isUpdate])⟩

/-- C9: `setChord(c1)` followed by `setChord(c2)`, directly or with any calls
but a `Falling` update in between, leaves the same state and the same events as
without `setChord(c1)`: the last pending chord wins and `c1` is never played.
`setChord` itself emits nothing, stores the chord as the pending chord and
leaves the active chord and the address (its lock included) as they are. -/
theorem setChord_last_wins
    (plus : MIDICNChannelAddress → Int → MIDICNChannelAddress)
    (b : MIDIChordButton) (c1 c2 : IChord) (mid : List Call)
    (hm : ∀ x ∈ mid, x.noPress = true) :
    (b.setChord c1).setChord c2 = b.setChord c2 ∧
    run plus (Call.setChord c1 :: (mid ++ [Call.setChord c2])) b
      = run plus (mid ++ [Call.setChord c2]) b ∧
    step plus (Call.setChord c1) b = some (b.setChord c1, []) ∧
    (b.setChord c1).newChord = some c1 ∧
    (b.setChord c1).chord = b.chord ∧
    (b.setChord c1).address = b.address := by
  refine ⟨rfl, ?_, rfl, rfl, rfl, rfl⟩
  have h := run_setChord_forgets_pending plus mid c2 (b.setChord c1) b rfl rfl hm
  simp only [run, step, h]
  cases run plus (mid ++ [Call.setChord c2]) b with
  | none => rfl
  | some r => simp

/-- Witness of C9: on a held button playing 3, 7, `setChord` of 5, 9, a poll and
the release, then `setChord` of 4, 7. -/
theorem setChord_last_wins_witness :
    (∀ x ∈ [Call.update Bank.identity Button.State.Held,
            Call.update Bank.shift4 Button.State.Rising], x.noPress = true) ∧
    (({ address := { base := note60, locked := some note60 }, chord := some [3, 7],
        newChord := none } : MIDIChordButton).setChord [5, 9]).setChord [4, 7]
      = ({ address := { base := note60, locked := some note60 }, chord := some [3, 7],
           newChord := none } : MIDIChordButton).setChord [4, 7] ∧
    run MIDICNChannelAddress.add
        (Call.setChord [5, 9] :: ([Call.update Bank.identity Button.State.Held,
          Call.update Bank.shift4 Button.State.Rising] ++ [Call.setChord [4, 7]]))
        { address := { base := note60, locked := some note60 }, chord := some [3, 7],
          newChord := none }
      = run MIDICNChannelAddress.add
        ([Call.update Bank.identity Button.State.Held,
          Call.update Bank.shift4 Button.State.Rising] ++ [Call.setChord [4, 7]])
        { address := { base := note60, locked := some note60 }, chord := some [3, 7],
          newChord := none } ∧
    step MIDICNChannelAddress.add (Call.setChord [5, 9])
        { address := { base := note60, locked := some note60 }, chord := some [3, 7],
          newChord := none }
      = some (({ address := { base := note60, locked := some note60 }, chord := some [3, 7],
                 newChord := none } : MIDIChordButton).setChord [5, 9], []) ∧
    (({ address := { base := note60, locked := some note60 }, chord := some [3, 7],
        newChord := none } : MIDIChordButton).setChord [5, 9]).newChord = some [5, 9] ∧
    (({ address := { base := note60, locked := some note60 }, chord := some [3, 7],
        newChord := none } : MIDIChordButton).setChord [5, 9]).chord
      = ({ address := { base := note60, locked := some note60 }, chord := some [3, 7],
           newChord := none } : MIDIChordButton).chord ∧
    (({ address := { base := note60, locked := some note60 }, chord := some [3, 7],
        newChord := none } : MIDIChordButton).setChord [5, 9]).address
      = ({ address := { base := note60, locked := some note60 }, chord := some [3, 7],
           newChord := none } : MIDIChordButton).address :=
  ⟨by simp [Call.noPress],
   setChord_last_wins MIDICNChannelAddress.add _ [5, 9] [4, 7] _ (by simp [Call.noPress])⟩

/-- C10: in every state, `update` on a button state that is neither `Falling`
nor `Rising` returns the object unchanged (active chord, pending chord and
address with its lock) and makes no call at all: no `sendOn`, no `sendOff`,
no `lock()`, no `unlock()`. -/
theorem steady_update_changes_nothing
    (plus : MIDICNChannelAddress → Int → MIDICNChannelAddress)
    (bank : Bank) (state : Button.State) (b : MIDIChordButton)
    (hF : state ≠ Button.State.Falling) (hR : state ≠ Button.State.Rising) :
    b.update plus bank state = some (b, []) :=
  update_steady plus bank state b hF hR

/-- Witness of C10: a `Held` poll of a pressed button with a pending chord. -/
theorem steady_update_changes_nothing_witness :
    Button.State.Held ≠ Button.State.Falling ∧ Button.State.Held ≠ Button.State.Rising ∧
    ({ address := { base := note60, locked := some note60 }, chord := some [3, 7],
       newChord := some [4, 7] } : MIDIChordButton).update MIDICNChannelAddress.add
        Bank.shift4 Button.State.Held
      = some ({ address := { base := note60, locked := some note60 }, chord := some [3, 7],
                newChord := some [4, 7] }, []) :=
  ⟨by decide, by decide,
   steady_update_changes_nothing MIDICNChannelAddress.add Bank.shift4 Button.State.Held _
     (by decide) (by decide)⟩

/-- C11: in every pressed state (address locked on `f`, active chord `c`), with
or without a pending chord and whatever the bank does, `update` on a `Rising`
edge returns, emits the complete note-off sequence `sendOff(f)`,
`sendOff(f + o)` for every offset `o` of `c` in order, then `unlock()`, ends with
the address unlocked, and leaves the active chord and the pending chord as they
were: a pending chord is neither consumed nor dropped. -/
theorem rising_update_completes_release
    (plus : MIDICNChannelAddress → Int → MIDICNChannelAddress)
    (bank : Bank) (b : MIDIChordButton) (c : IChord) (f : MIDICNChannelAddress)
    (hc : b.chord = some c) (hl : b.address.locked = some f) :
    ∃ b1 t,
      b.update plus bank Button.State.Rising = some (b1, t) ∧
      t = Event.sendOff f :: c.map (fun o => Event.sendOff (plus f o)) ++ [Event.unlock] ∧
      offAddresses t = f :: c.map (plus f) ∧
      onAddresses t = [] ∧
      lockCalls t = [Event.unlock] ∧
      b1.address.locked = none ∧
      b1.address.base = b.address.base ∧
      b1.chord = some c ∧
      b1.newChord = b.newChord := by
  have ha : b.address.getActiveAddress bank = f := by
    simp [SingleAddress.getActiveAddress, hl]
  have hu := update_rising plus bank b c hc
  rw [ha] at hu
  refine ⟨{ b with address := b.address.unlock }, _, hu, rfl, ?_, ?_, ?_, rfl, rfl, hc, rfl⟩
  · exact offAddresses_release plus f c
  · exact onAddresses_release plus f c
  · exact lockCalls_release plus f c

/-- Witness of C11: a button held on note 60 with chord 3, 7 and the chord 4, 7
pending, released while the bank has moved. -/
theorem rising_update_completes_release_witness :
    ({ address := { base := note60, locked := some note60 }, chord := some [3, 7],
       newChord := some [4, 7] } : MIDIChordButton).chord = some [3, 7] ∧
    ({ address := { base := note60, locked := some note60 }, chord := some [3, 7],
       newChord := some [4, 7] } : MIDIChordButton).address.locked = some note60 ∧
    (∃ b1 t,
      ({ address := { base := note60, locked := some note60 }, chord := some [3, 7],
         newChord := some [4, 7] } : MIDIChordButton).update MIDICNChannelAddress.add
          Bank.shift4 Button.State.Rising = some (b1, t) ∧
      t = Event.sendOff note60
            :: [3, 7].map (fun o => Event.sendOff (MIDICNChannelAddress.add note60 o))
            ++ [Event.unlock] ∧
      offAddresses t = note60 :: [3, 7].map (MIDICNChannelAddress.add note60) ∧
      onAddresses t = [] ∧
      lockCalls t = [Event.unlock] ∧
      b1.address.locked = none ∧
      b1.address.base
        = ({ address := { base := note60, locked := some note60 }, chord := some [3, 7],
             newChord := some [4, 7] } : MIDIChordButton).address.base ∧
      b1.chord = some [3, 7] ∧
      b1.newChord
        = ({ address := { base := note60, locked := some note60 }, chord := some [3, 7],
             newChord := some [4, 7] } : MIDIChordButton).newChord) ∧
    ({ address := { base := note60, locked := some note60 }, chord := some [3, 7],
       newChord := some [4, 7] } : MIDIChordButton).update MIDICNChannelAddress.add
        Bank.shift4 Button.State.Rising
      = some ({ address := { base := note60, locked := none }, chord := some [3, 7],
                newChord := some [4, 7] },
              [Event.sendOff (noteAt 60), Event.sendOff (noteAt 63), Event.sendOff (noteAt 67),
               Event.unlock]) :=
  ⟨rfl, rfl,
   rising_update_completes_release MIDICNChannelAddress.add Bank.shift4 _ [3, 7] note60 rfl rfl,
   by decide⟩

/-- Once there is an active chord, every call returns and there is an active
chord afterwards. -/
theorem chord_stays (plus : MIDICNChannelAddress → Int → MIDICNChannelAddress)
    (cs : List Call) (b : MIDIChordButton) (hc : b.chord.isSome = true) :
    ∃ b1 t, run plus cs b = some (b1, t) ∧ b1.chord.isSome = true := by
  induction cs generalizing b with
  | nil => exact ⟨b, [], rfl, hc⟩
  | cons x xs ih =>
    cases x with
    | setChord ch =>
      obtain ⟨b1, t, hr, h1⟩ := ih (b.setChord ch) hc
      exact ⟨b1, t, by simp [run, step, hr], h1⟩
    | update bank state =>
      cases state with
      | Idle =>
        have hs := update_steady plus bank Button.State.Idle b (by decide) (by decide)
        obtain ⟨b1, t, hr, h1⟩ := ih b hc
        exact ⟨b1, t, by simp [run, step, hs, hr], h1⟩
      | Held =>
        have hs := update_steady plus bank Button.State.Held b (by decide) (by decide)
        obtain ⟨b1, t, hr, h1⟩ := ih b hc
        exact ⟨b1, t, by simp [run, step, hs, hr], h1⟩
      | Falling =>
        obtain ⟨c, hn⟩ := nextChord_isSome b (Or.inl hc)
        have hs := update_falling plus bank b c hn
        obtain ⟨b1, t, hr, h1⟩ := ih
          { address := b.address.lock bank, chord := some c, newChord := none } rfl
        exact ⟨b1, (Event.lock :: sendOnAll plus (b.address.getActiveAddress bank) c) ++ t,
          by simp [run, step, hs, hr], h1⟩
      | Rising =>
        obtain ⟨c, hch⟩ := Option.isSome_iff_exists.mp hc
        have hs := update_rising plus bank b c hch
        obtain ⟨b1, t, hr, h1⟩ := ih { b with address := b.address.unlock } hc
        exact ⟨b1, (sendOffAll plus (b.address.getActiveAddress bank) c ++ [Event.unlock]) ++ t,
          by simp [run, step, hs, hr], h1⟩

/-- From a state that has a chord to play, calls without a release before the
first press all return; a chord to play remains, and it is the active chord
once a press has been processed. -/
theorem noEarlyRising_run (plus : MIDICNChannelAddress → Int → MIDICNChannelAddress)
    (cs : List Call) (b : MIDIChordButton)
    (hb : b.chord.isSome = true ∨ b.newChord.isSome = true)
    (h : noEarlyRising cs = true) :
    ∃ b1 t, run plus cs b = some (b1, t) ∧
      (b1.chord.isSome = true ∨ b1.newChord.isSome = true) ∧
      (hasFalling cs = true → b1.chord.isSome = true) := by
  induction cs generalizing b with
  | nil => exact ⟨b, [], rfl, hb, by simp [hasFalling]⟩
  | cons x xs ih =>
    cases x with
    | setChord ch =>
      obtain ⟨b1, t, hr, h1, h2⟩ := ih (b.setChord ch) (Or.inr rfl)
        (by simpa [noEarlyRising] using h)
      exact ⟨b1, t, by simp [run, step, hr], h1, by simpa [hasFalling] using h2⟩
    | update bank state =>
      cases state with
      | Idle =>
        have hs := update_steady plus bank Button.State.Idle b (by decide) (by decide)
        obtain ⟨b1, t, hr, h1, h2⟩ := ih b hb (by simpa [noEarlyRising] using h)
        exact ⟨b1, t, by simp [run, step, hs, hr], h1, by simpa [hasFalling] using h2⟩
      | Held =>
        have hs := update_steady plus bank Button.State.Held b (by decide) (by decide)
        obtain ⟨b1, t, hr, h1, h2⟩ := ih b hb (by simpa [noEarlyRising] using h)
        exact ⟨b1, t, by simp [run, step, hs, hr], h1, by simpa [hasFalling] using h2⟩
      | Falling =>
        obtain ⟨c, hn⟩ := nextChord_isSome b hb
        have hs := update_falling plus bank b c hn
        obtain ⟨b1, t, hr, h1⟩ := chord_stays plus xs
          { address := b.address.lock bank, chord := some c, newChord := none } rfl
        exact ⟨b1, (Event.lock :: sendOnAll plus (b.address.getActiveAddress bank) c) ++ t,
          by simp [run, step, hs, hr], Or.inl h1, fun _ => h1⟩
      | Rising => simp [noEarlyRising] at h

theorem noEarlyRising_append (xs ys : List Call) (h : noEarlyRising (xs ++ ys) = true) :
    noEarlyRising xs = true ∧ (hasFalling xs = true ∨ noEarlyRising ys = true) := by
  induction xs with
  | nil => exact ⟨rfl, Or.inr (by simpa using h)⟩
  | cons x xs ih =>
    cases x with
    | setChord ch => simpa [noEarlyRising, hasFalling] using ih (by simpa [noEarlyRising] using h)
    | update bank state =>
      cases state with
      | Idle => simpa [noEarlyRising, hasFalling] using ih (by simpa [noEarlyRising] using h)
      | Held => simpa [noEarlyRising, hasFalling] using ih (by simpa [noEarlyRising] using h)
      | Falling => simp [noEarlyRising, hasFalling]
      | Rising => simp [noEarlyRising] at h

/-- C13: for every sequence of `update` and `setChord` calls on a freshly
constructed button in which no `Rising` edge comes before the first `Falling`
edge, every call returns (no `*chord` on a null pointer), and at every `update`
in the sequence the chord that is dereferenced is there: on a `Falling` edge
the chord that is active after the move of the pending chord, on a `Rising`
edge the active chord.  Once one `Falling` edge has been processed the active
chord is there in every later state. -/
theorem active_chord_present_at_every_dereference
    (plus : MIDICNChannelAddress → Int → MIDICNChannelAddress)
    (a : MIDICNChannelAddress) (c : IChord) (calls : List Call)
    (h : noEarlyRising calls = true) :
    ∃ b t, run plus calls (MIDIChordButton.init a c) = some (b, t) ∧
      (hasFalling calls = true → b.chord.isSome = true) ∧
      ∀ pre bank state post, calls = pre ++ Call.update bank state :: post →
        ∃ b0 t0, run plus pre (MIDIChordButton.init a c) = some (b0, t0) ∧
          (hasFalling pre = true → b0.chord.isSome = true) ∧
          (state = Button.State.Falling → ∃ c1, b0.nextChord = some c1) ∧
          (state = Button.State.Rising → b0.chord.isSome = true) ∧
          ∃ r, b0.update plus bank state = some r := by
  have hinit : (MIDIChordButton.init a c).chord.isSome = true
      ∨ (MIDIChordButton.init a c).newChord.isSome = true := Or.inr rfl
  obtain ⟨b, t, hr, _, hf⟩ := noEarlyRising_run plus calls _ hinit h
  refine ⟨b, t, hr, hf, ?_⟩
  intro pre bank state post hcalls
  subst hcalls
  obtain ⟨hpre, hrest⟩ := noEarlyRising_append pre _ h
  obtain ⟨b0, t0, hr0, hb0, hf0⟩ := noEarlyRising_run plus pre _ hinit hpre
  have hF : state = Button.State.Falling → ∃ c1, b0.nextChord = some c1 :=
    fun _ => nextChord_isSome b0 hb0
  have hR : state = Button.State.Rising → b0.chord.isSome = true := by
    intro hs
    subst hs
    rcases hrest with hrest | hrest
    · exact hf0 hrest
    · simp [noEarlyRising] at hrest
  refine ⟨b0, t0, hr0, hf0, hF, hR, ?_⟩
  cases state with
  | Idle => exact ⟨_, update_steady plus bank Button.State.Idle b0 (by decide) (by decide)⟩
  | Held => exact ⟨_, update_steady plus bank Button.State.Held b0 (by decide) (by decide)⟩
  | Falling =>
    obtain ⟨c1, hn⟩ := hF rfl
    exact ⟨_, update_falling plus bank b0 c1 hn⟩
  | Rising =>
    obtain ⟨c1, hch⟩ := Option.isSome_iff_exists.mp (hR rfl)
    exact ⟨_, update_rising plus bank b0 c1 hch⟩

/-- Witness of C13: a poll and a `setChord` before the first press, then a
press, a second press without release, and two releases. -/
theorem active_chord_present_at_every_dereference_witness :
    noEarlyRising
      [Call.update Bank.identity Button.State.Idle, Call.setChord [4, 7],
       Call.update Bank.identity Button.State.Falling,
       Call.update Bank.shift4 Button.State.Falling,
       Call.update Bank.shift4 Button.State.Rising,
       Call.update Bank.identity Button.State.Rising] = true ∧
    ∃ b t, run MIDICNChannelAddress.add
        [Call.update Bank.identity Button.State.Idle, Call.setChord [4, 7],
         Call.update Bank.identity Button.State.Falling,
         Call.update Bank.shift4 Button.State.Falling,
         Call.update Bank.shift4 Button.State.Rising,
         Call.update Bank.identity Button.State.Rising]
        (MIDIChordButton.init note60 [3, 7]) = some (b, t) ∧
      (hasFalling
        [Call.update Bank.identity Button.State.Idle, Call.setChord [4, 7],
         Call.update Bank.identity Button.State.Falling,
         Call.update Bank.shift4 Button.State.Falling,
         Call.update Bank.shift4 Button.State.Rising,
         Call.update Bank.identity Button.State.Rising] = true → b.chord.isSome = true) ∧
      ∀ pre bank state post,
        [Call.update Bank.identity Button.State.Idle, Call.setChord [4, 7],
         Call.update Bank.identity Button.State.Falling,
         Call.update Bank.shift4 Button.State.Falling,
         Call.update Bank.shift4 Button.State.Rising,
         Call.update Bank.identity Button.State.Rising]
          = pre ++ Call.update bank state :: post →
        ∃ b0 t0, run MIDICNChannelAddress.add pre (MIDIChordButton.init note60 [3, 7])
            = some (b0, t0) ∧
          (hasFalling pre = true → b0.chord.isSome = true) ∧
          (state = Button.State.Falling → ∃ c1, b0.nextChord = some c1) ∧
          (state = Button.State.Rising → b0.chord.isSome = true) ∧
          ∃ r, b0.update MIDICNChannelAddress.add bank state = some r :=
  ⟨rfl, active_chord_present_at_every_dereference MIDICNChannelAddress.add note60 [3, 7] _ rfl⟩

end Bankable
